import Mathlib

/-!
Verification of the open-addressing hash-table engine in `src/hashperformance.c`.

The C code is embedded shallowly:
* machine integers become `Nat` with explicit `% 2 ^ w` where C unsigned
  wrap-around matters (`unsigned int` is 32 bits, `unsigned long long` and
  `size_t` are 64 bits, `int` is 32 bits);
* the C `double` computations (`hash_context_init`, `probe_quadratic`,
  `get_load_factor`) are modelled by their exact rational values.  Every
  theorem about such a value carries the domain restriction under which
  the IEEE-754 binary64 computation is exact (for the quadratic probe:
  attempt index below 2^26, i.e. capacity exponent at most 26), so that on
  the theorem's domain the model coincides with the C code; outside those
  domains the C doubles round and only rounding-independent properties
  (such as `% capacity` range bounds) are stated;
* the in-place mutation of `probe_context` (the lazy `hash2` cache used by
  `probe_doublehash`) is modelled by explicit state passing: each probe
  function returns the possibly-updated context next to the slot index.
-/

namespace HashPerf

/-- C struct `hash_context`: per-table derived hashing constants.
`mult_A` is an `unsigned long long`, the other two fields are `unsigned int`. -/
structure hash_context where
  mult_A : Nat
  capacity_pow2exp : Nat
  capacity : Nat
deriving DecidableEq

/-- C struct `probe_context`: the ephemeral per-insertion probing state.
`key` is a C `int`, `hash1` and `hash2` are `unsigned int`, `capacity` is
`size_t`.  `hash2 = 0` means "secondary hash not computed yet". -/
structure probe_context where
  hash_ctx : hash_context
  key : Int
  hash1 : Nat
  hash2 : Nat
  capacity : Nat
deriving DecidableEq

/-- C struct `hash_table_entry`: one slot (occupied flag plus stored value). -/
structure hash_table_entry where
  «exists» : Bool
  value : Int
deriving DecidableEq

/-- The three probe strategies registered in `probe_types` in `main`; the C
code passes them around as function pointers of type `probe_func`. -/
inductive ProbeKind where
  | linear
  | quadratic
  | doublehash
deriving DecidableEq

/-- C struct `hash_table`.  The `values` array is modelled as a list of
length `capacity`. -/
structure hash_table where
  capacity_pow2exp : Nat
  capacity : Nat
  entries : Nat
  collisions : Nat
  values : List hash_table_entry
  probe : ProbeKind
  hash_ctx : hash_context
deriving DecidableEq

/-- The descending scan `for (int i = bits - 2; i > 0; i--)` inside
`pow2_round_exponent`: returns `i + 1` for the largest `i` in `[1, start]`
with bit `i` of `value` set, and `0` if no such bit exists.  Note the loop
condition `i > 0` stops before examining bit 0. -/
def pow2exp_loop (value : Nat) : Nat → Nat
  | 0 => 0
  | i + 1 => if value.testBit (i + 1) then (i + 1) + 1 else pow2exp_loop value i

/-- C function `pow2_round_exponent` for 64-bit `size_t` (`bits = 64`).
The C guard `value & 1 << (bits - 1)` intends to test the top bit of
`value` (the expression `1 << 63` overflows `int` and is undefined in C;
the evident intent, returning 0 when bit 63 is set, is modelled). -/
def pow2_round_exponent (value : Nat) : Nat :=
  if value.testBit 63 then 0 else pow2exp_loop value 62

/-- C function `pow2_round`: `(size_t)1 << pow2_round_exponent(value)`. -/
def pow2_round (value : Nat) : Nat :=
  (1 : Nat) <<< pow2_round_exponent value

/-- C function `hash_context_init`: derives the multiplicative constant
`mult_A = (unsigned long long)(0.5 * capacity * (sqrt5 - 1))` with
`sqrt5 = 2.236067977`.  The `double` literal is modelled by its decimal
value, so `0.5 * capacity * (sqrt5 - 1)` is the rational
`capacity * 1236067977 / 2000000000`, and the cast to `unsigned long long`
truncates towards zero, i.e. takes the integer quotient.  (The `double`
products round once more in C; no theorem below depends on the exact
constant.)  The narrowing stores into the `unsigned int` context fields
are kept. -/
def hash_context_init (table : hash_table) : hash_context :=
  { mult_A := (table.capacity * 1236067977 / 2000000000) % 2 ^ 64,
    capacity_pow2exp := table.capacity_pow2exp % 2 ^ 32,
    capacity := table.capacity % 2 ^ 32 }

/-- C function `hash1` (multiplicative hashing):
`key * ctx.mult_A >> (sizeof(int) * CHAR_BIT - ctx.capacity_pow2exp)`.
The C `int` key is converted to `unsigned long long` (i.e. reduced mod
2^64), the 64-bit product wraps mod 2^64, the shift distance is
`32 - capacity_pow2exp` (32 = bit width of `int`, not of the 64-bit
product), and the result is truncated to `unsigned int`. -/
def hash1 (ctx : hash_context) (key : Int) : Nat :=
  ((((key % (2 ^ 64 : Int)).toNat * ctx.mult_A) % 2 ^ 64)
      >>> (32 - ctx.capacity_pow2exp)) % 2 ^ 32

/-- The `while (mask != 0)` loop of C function `hash2`, with explicit fuel
(64 steps are more than the at most 32 iterations the 32-bit mask allows
whenever `capacity_pow2exp ≥ 1`; with zero exponent the mask is 0 at entry
for the capacity-1 table, so the loop body never runs).  Each iteration
overwrites `h` with `(mask & key) >> shift`, then shifts the 32-bit mask
left by `capacity_pow2exp` and advances `shift` accordingly. -/
def hash2_loop (capacity_pow2exp key : Nat) : Nat → Nat → Nat → Nat → Nat
  | 0, _, h, _ => h
  | fuel + 1, mask, h, shift =>
    if mask = 0 then h
    else hash2_loop capacity_pow2exp key fuel
      ((mask <<< capacity_pow2exp) % 2 ^ 32)
      ((mask &&& key) >>> shift)
      (shift + capacity_pow2exp)

/-- C function `hash2` (folding hash): runs the mask loop starting from
`mask = ctx.capacity - 1` (an `unsigned int`; every table has capacity at
least 1, so the unsigned wrap-around at capacity 0 is immaterial) and
forces the result odd with `| 1`.  The `int` key is converted to
`unsigned int` by the `&`. -/
def hash2 (ctx : hash_context) (key : Int) : Nat :=
  (hash2_loop ctx.capacity_pow2exp ((key % (2 ^ 32 : Int)).toNat)
      64 ((ctx.capacity - 1) % 2 ^ 32) 0 0) ||| 1

/-- C function `probe_linear`: `(ctx->hash1 + i) % ctx->capacity`.
The sum is `unsigned int` arithmetic (mod 2^32). -/
def probe_linear (ctx : probe_context) (i : Nat) : Nat × probe_context :=
  (((ctx.hash1 + i) % 2 ^ 32) % ctx.capacity, ctx)

/-- C function `probe_quadratic`:
`result = (size_t)(ctx->hash1 + ic + ic * i + 1)` with `ic = i * 0.5`.
This models the exact value of the `double` expression
`hash1 + i*0.5 + i*0.5*i + 1`, namely `(2*hash1 + i + i*i + 2) / 2`, with
the `(size_t)` cast truncating towards zero.  The model agrees with the C
`double` computation exactly when `i < 2^26` and `hash1 < 2^32`: there
every intermediate value is a multiple of 1/2 of magnitude below 2^52,
hence exactly representable, and no rounding occurs.  For larger attempt
indices — reachable only in tables of capacity above 2^26 — the C doubles
round and this exact model diverges from the source.  Every theorem below
about the *value* of the quadratic probe therefore carries the restriction
`i < 2^26` (for whole-table properties: exponent ≤ 26); only the range
property `slot < capacity`, which the final `% capacity` enforces in C
independently of any rounding, is stated without it. -/
def probe_quadratic (ctx : probe_context) (i : Nat) : Nat × probe_context :=
  let result : Nat := (2 * ctx.hash1 + i + i * i + 2) / 2
  (result % ctx.capacity, ctx)

/-- C function `probe_doublehash`: lazily fills the `hash2` cache on first
use (`if (ctx->hash2 == 0)`), then returns
`(ctx->hash1 + i * ctx->hash2) % ctx->capacity`, where the sum and product
are `unsigned int` arithmetic (mod 2^32).  The updated context is returned
next to the slot, modelling the in-place mutation of `*ctx`. -/
def probe_doublehash (ctx : probe_context) (i : Nat) : Nat × probe_context :=
  let ctx' := if ctx.hash2 = 0
    then { ctx with hash2 := hash2 ctx.hash_ctx ctx.key } else ctx
  (((ctx'.hash1 + i * ctx'.hash2) % 2 ^ 32) % ctx'.capacity, ctx')

/-- Dispatch through the `probe_func` function pointer stored in the table:
`table->probe(&ctx, i)`. -/
def probeStep : ProbeKind → probe_context → Nat → Nat × probe_context
  | .linear => probe_linear
  | .quadratic => probe_quadratic
  | .doublehash => probe_doublehash

/-- Result of one insertion's probe loop: final slot array, final probe
context, collision count, and whether a free slot was found. -/
structure AddResult where
  vals : List hash_table_entry
  ctx : probe_context
  colls : Nat
  inserted : Bool
deriving DecidableEq

/-- The `for (int i = 0; i < capacity; i++)` loop of `hash_table_add`,
over the remaining attempt indices: probe a slot; if it is free, occupy it
and stop; otherwise count a collision and continue. -/
def addLoop (pk : ProbeKind) (v : Int) :
    List Nat → probe_context → List hash_table_entry → AddResult
  | [], ctx, vals => ⟨vals, ctx, 0, false⟩
  | i :: rest, ctx, vals =>
    if (vals.getD (probeStep pk ctx i).1 ⟨false, 0⟩).exists then
      ⟨(addLoop pk v rest (probeStep pk ctx i).2 vals).vals,
       (addLoop pk v rest (probeStep pk ctx i).2 vals).ctx,
       (addLoop pk v rest (probeStep pk ctx i).2 vals).colls + 1,
       (addLoop pk v rest (probeStep pk ctx i).2 vals).inserted⟩
    else
      ⟨vals.set (probeStep pk ctx i).1 ⟨true, v⟩, (probeStep pk ctx i).2, 0, true⟩

/-- The `probe_context` literal built at the top of `hash_table_add`: the
lazy `hash2` cache starts out empty (0). -/
def addCtx (table : hash_table) (v : Int) : probe_context :=
  { hash_ctx := table.hash_ctx, key := v, capacity := table.capacity,
    hash1 := hash1 table.hash_ctx v, hash2 := 0 }

/-- C function `hash_table_add`: builds the probe context (with the lazy
`hash2` cache empty), runs the probe loop over attempts `0, …, capacity-1`,
increments `entries` on success, and returns the per-insertion collision
count.  The C code prints "Table full" exactly when that count equals
`capacity` (see `addReportsFull`). -/
def hash_table_add (table : hash_table) (v : Int) : hash_table × Nat :=
  ({ table with
      values := (addLoop table.probe v (List.range table.capacity)
        (addCtx table v) table.values).vals,
      entries := table.entries +
        (if (addLoop table.probe v (List.range table.capacity)
          (addCtx table v) table.values).inserted then 1 else 0) },
   (addLoop table.probe v (List.range table.capacity)
     (addCtx table v) table.values).colls)

/-- The observable `printf("Table full, laddies/lassies!\n")` of
`hash_table_add`: fires exactly when `colls == table->capacity`. -/
def addReportsFull (table : hash_table) (v : Int) : Bool :=
  (hash_table_add table v).2 == table.capacity

/-- C function `hash_table_create`: capacity and exponent from the power-of
-two planner, `calloc`-zeroed slot array (all slots `{false, 0}`), chosen
probe strategy, and the derived hash context. -/
def hash_table_create (min_capacity : Nat) (probe : ProbeKind) : hash_table :=
  let t : hash_table :=
    { capacity_pow2exp := pow2_round_exponent min_capacity,
      capacity := pow2_round min_capacity,
      entries := 0,
      collisions := 0,
      values := List.replicate (pow2_round min_capacity) ⟨false, 0⟩,
      probe := probe,
      hash_ctx := { mult_A := 0, capacity_pow2exp := 0, capacity := 0 } }
  { t with hash_ctx := hash_context_init t }

/-- C function `hash_table_add_all`: inserts the values in order and sums
the per-insertion collision counts. -/
def hash_table_add_all (table : hash_table) (values : List Int) :
    hash_table × Nat :=
  values.foldl (fun acc v =>
    let r := hash_table_add acc.1 v
    (r.1, acc.2 + r.2)) (table, 0)

/-- The table after inserting the given values in order. -/
def insertSeq (table : hash_table) (values : List Int) : hash_table :=
  values.foldl (fun t v => (hash_table_add t v).1) table

/-- Whether any insertion of the batch triggers the "Table full" report. -/
def addAllReportsFull (table : hash_table) : List Int → Bool
  | [] => false
  | v :: vs => addReportsFull table v || addAllReportsFull (hash_table_add table v).1 vs

/-- The secondary hash actually used by `probe_doublehash` once the lazy
cache is resolved. -/
def resolveH2 (ctx : probe_context) : Nat :=
  if ctx.hash2 = 0 then hash2 ctx.hash_ctx ctx.key else ctx.hash2

/-- The slot index `probeStep` yields, as a pure function of the incoming
context (the cache resolution is unfolded). -/
def pureSlot (pk : ProbeKind) (ctx : probe_context) (i : Nat) : Nat :=
  match pk with
  | .linear => ((ctx.hash1 + i) % 2 ^ 32) % ctx.capacity
  | .quadratic => ((2 * ctx.hash1 + i + i * i + 2) / 2) % ctx.capacity
  | .doublehash => ((ctx.hash1 + i * resolveH2 ctx) % 2 ^ 32) % ctx.capacity

/-- Number of occupied slots. -/
def occupiedCount (l : List hash_table_entry) : Nat :=
  l.countP (fun s => s.exists)

/-- A freshly created table: zeroed slot array of length `capacity`, no
entries, and a power-of-two capacity whose exponent is at most 32 (every
table built by `hash_table_create` from `min_capacity < 2^32` is of this
shape, see `hash_table_create_fresh`). -/
def Fresh (t : hash_table) : Prop :=
  t.values = List.replicate t.capacity ⟨false, 0⟩ ∧
  t.entries = 0 ∧
  t.capacity = 2 ^ t.capacity_pow2exp ∧
  t.capacity_pow2exp ≤ 32

instance (t : hash_table) : Decidable (Fresh t) := by
  unfold Fresh; infer_instance

/-! ### Slot-array bookkeeping -/

theorem occupiedCount_le_length (l : List hash_table_entry) :
    occupiedCount l ≤ l.length :=
  List.countP_le_length _

theorem exists_free_of_count_lt (l : List hash_table_entry)
    (h : occupiedCount l < l.length) :
    ∃ f, f < l.length ∧ (l.getD f ⟨false, 0⟩).exists = false := by
  induction l with
  | nil => simp at h
  | cons a t ih =>
    by_cases ha : a.exists
    · have ht : occupiedCount t < t.length := by
        simp only [occupiedCount, List.countP_cons, List.length_cons] at h
        simp only [occupiedCount]
        simp [ha] at h
        omega
      obtain ⟨f, hf, hfree⟩ := ih ht
      exact ⟨f + 1, by simpa using hf, by simpa using hfree⟩
    · exact ⟨0, by simp, by simpa using ha⟩

theorem occupiedCount_set_true (l : List hash_table_entry) (j : Nat) (v : Int)
    (hj : j < l.length) (hfree : (l.getD j ⟨false, 0⟩).exists = false) :
    occupiedCount (l.set j ⟨true, v⟩) = occupiedCount l + 1 := by
  induction l generalizing j with
  | nil => simp at hj
  | cons a t ih =>
    cases j with
    | zero =>
      have ha : a.exists = false := by simpa using hfree
      simp [occupiedCount, List.countP_cons, ha]
    | succ j =>
      have hj' : j < t.length := by simpa using hj
      have hfree' : (t.getD j ⟨false, 0⟩).exists = false := by simpa using hfree
      simp only [List.set_cons_succ, occupiedCount, List.countP_cons]
      have := ih j hj' hfree'
      simp only [occupiedCount] at this
      omega

theorem getD_set_monotone (l : List hash_table_entry) (j k : Nat) (v : Int)
    (h : (l.getD k ⟨false, 0⟩).exists = true) :
    ((l.set j ⟨true, v⟩).getD k ⟨false, 0⟩).exists = true := by
  rcases eq_or_ne j k with rfl | hne
  · cases hk : l[j]? with
    | none =>
      rw [List.getD_eq_getElem?_getD, hk] at h
      simp at h
    | some b =>
      rw [List.getD_eq_getElem?_getD, List.getElem?_set', if_pos rfl, hk]
      simp [Function.const]
  · rw [List.getD_eq_getElem?_getD, List.getElem?_set', if_neg hne,
      ← List.getD_eq_getElem?_getD]
    exact h

/-! ### Probe-step structure: the slot is a pure function of the incoming
context, and the context update (the lazy `hash2` cache) is transparent. -/

theorem probeStep_fst (pk : ProbeKind) (ctx : probe_context) (i : Nat) :
    (probeStep pk ctx i).1 = pureSlot pk ctx i := by
  cases pk with
  | linear => rfl
  | quadratic => rfl
  | doublehash =>
    simp only [probeStep, probe_doublehash, pureSlot, resolveH2]
    split <;> rfl

theorem probeStep_capacity (pk : ProbeKind) (ctx : probe_context) (i : Nat) :
    ((probeStep pk ctx i).2).capacity = ctx.capacity := by
  cases pk with
  | linear => rfl
  | quadratic => rfl
  | doublehash =>
    simp only [probeStep, probe_doublehash]
    split <;> rfl

theorem resolveH2_probeStep (pk : ProbeKind) (ctx : probe_context) (i : Nat) :
    resolveH2 ((probeStep pk ctx i).2) = resolveH2 ctx := by
  cases pk with
  | linear => rfl
  | quadratic => rfl
  | doublehash =>
    by_cases h0 : ctx.hash2 = 0
    · simp [probeStep, probe_doublehash, resolveH2, h0]
    · simp [probeStep, probe_doublehash, resolveH2, h0]

theorem pureSlot_probeStep (pk pk' : ProbeKind) (ctx : probe_context)
    (i j : Nat) :
    pureSlot pk' ((probeStep pk ctx i).2) j = pureSlot pk' ctx j := by
  have hcap := probeStep_capacity pk ctx i
  have hres := resolveH2_probeStep pk ctx i
  have hh1 : ((probeStep pk ctx i).2).hash1 = ctx.hash1 := by
    cases pk with
    | linear => rfl
    | quadratic => rfl
    | doublehash =>
      simp only [probeStep, probe_doublehash]
      split <;> rfl
  cases pk' with
  | linear => simp [pureSlot, hcap, hh1]
  | quadratic => simp [pureSlot, hcap, hh1]
  | doublehash => simp [pureSlot, hcap, hh1, hres]

theorem pureSlot_lt (pk : ProbeKind) (ctx : probe_context) (i : Nat)
    (hcap : 0 < ctx.capacity) : pureSlot pk ctx i < ctx.capacity := by
  cases pk <;> exact Nat.mod_lt _ hcap

/-! ### The secondary (folding) hash: oddness and range -/

theorem or_one_lt_two_pow {a n : Nat} (ha : a < 2 ^ n) (h1 : 1 ≤ n) :
    a ||| 1 < 2 ^ n := by
  apply Nat.lt_pow_two_of_testBit
  intro i hi
  have h2 : (2 : Nat) ^ n ≤ 2 ^ i := Nat.pow_le_pow_right (by norm_num) hi
  rw [Nat.testBit_or,
    Nat.testBit_lt_two_pow (Nat.lt_of_lt_of_le ha h2),
    Nat.testBit_lt_two_pow (Nat.lt_of_lt_of_le (by
      calc (1 : Nat) < 2 ^ 1 := by norm_num
        _ ≤ 2 ^ n := Nat.pow_le_pow_right (by norm_num) h1) h2)]
  rfl

theorem hash2_odd (ctx : hash_context) (key : Int) : hash2 ctx key % 2 = 1 := by
  unfold hash2
  have h1 : ((hash2_loop ctx.capacity_pow2exp ((key % (2 ^ 32 : Int)).toNat)
      64 ((ctx.capacity - 1) % 2 ^ 32) 0 0) ||| 1).testBit 0 = true := by
    rw [Nat.testBit_or]
    simp [Nat.testBit_one_zero]
  rw [Nat.testBit_zero] at h1
  exact of_decide_eq_true h1

theorem hash2_ne_zero (ctx : hash_context) (key : Int) : hash2 ctx key ≠ 0 := by
  intro h
  have := hash2_odd ctx key
  rw [h] at this
  simp at this

theorem hash2_loop_le (e key : Nat) :
    ∀ (fuel mask h shift : Nat),
      mask = ((2 ^ e - 1) * 2 ^ shift) % 2 ^ 32 →
      h ≤ 2 ^ e - 1 →
      hash2_loop e key fuel mask h shift ≤ 2 ^ e - 1 := by
  intro fuel
  induction fuel with
  | zero => intro mask h shift _ hh; simpa [hash2_loop] using hh
  | succ n ih =>
    intro mask h shift hmask hh
    unfold hash2_loop
    split
    · exact hh
    · apply ih
      · rw [hmask, Nat.shiftLeft_eq, Nat.mod_mul_mod, Nat.mul_assoc,
          ← Nat.pow_add]
      · calc (mask &&& key) >>> shift ≤ mask >>> shift := by
              rw [Nat.shiftRight_eq_div_pow, Nat.shiftRight_eq_div_pow]
              exact Nat.div_le_div_right Nat.and_le_left
          _ ≤ 2 ^ e - 1 := by
              rw [hmask, Nat.shiftRight_eq_div_pow]
              calc ((2 ^ e - 1) * 2 ^ shift) % 2 ^ 32 / 2 ^ shift
                  ≤ (2 ^ e - 1) * 2 ^ shift / 2 ^ shift :=
                    Nat.div_le_div_right (Nat.mod_le _ _)
                _ = 2 ^ e - 1 :=
                    Nat.mul_div_cancel _ (Nat.pos_pow_of_pos _ (by norm_num))

theorem hash2_lt (ctx : hash_context) (key : Int)
    (hcap : ctx.capacity = 2 ^ ctx.capacity_pow2exp)
    (he1 : 1 ≤ ctx.capacity_pow2exp) :
    hash2 ctx key < ctx.capacity := by
  unfold hash2
  rw [hcap]
  apply or_one_lt_two_pow _ he1
  have hle := hash2_loop_le ctx.capacity_pow2exp ((key % (2 ^ 32 : Int)).toNat)
    64 ((2 ^ ctx.capacity_pow2exp - 1) % 2 ^ 32) 0 0
    (by rw [Nat.pow_zero, Nat.mul_one]) (Nat.zero_le _)
  have hpos : 0 < 2 ^ ctx.capacity_pow2exp :=
    Nat.pos_pow_of_pos _ (by norm_num)
  omega

/-! ### Full-cycle property: each probe strategy enumerates all slots -/

theorem coprime_two_pow_of_odd {n m : Nat} (h : n % 2 = 1) :
    Nat.Coprime (2 ^ m) n :=
  Nat.Coprime.pow_left _
    ((Nat.Prime.coprime_iff_not_dvd Nat.prime_two).mpr (by omega))

theorem mul_odd_mod_pow_two_inj {r e i j : Nat} (hodd : r % 2 = 1)
    (hij : i * r ≡ j * r [MOD 2 ^ e]) (hi : i < 2 ^ e) (hj : j < 2 ^ e) :
    i = j := by
  have hco : Nat.Coprime (2 ^ e) r := coprime_two_pow_of_odd hodd
  have key : ∀ {a b : Nat}, a ≤ b → b < 2 ^ e →
      a * r ≡ b * r [MOD 2 ^ e] → a = b := by
    intro a b hab hb hmod
    have hdvd : 2 ^ e ∣ b * r - a * r :=
      (Nat.modEq_iff_dvd' (Nat.mul_le_mul_right _ hab)).mp hmod
    rw [← Nat.sub_mul] at hdvd
    have hba : 2 ^ e ∣ b - a := hco.dvd_of_dvd_mul_right hdvd
    have : b - a = 0 := Nat.eq_zero_of_dvd_of_lt hba (by omega)
    omega
  rcases Nat.le_total i j with hle | hle
  · exact key hle hj hij
  · exact (key hle hi hij.symm).symm

theorem pureSlot_linear_inj (ctx : probe_context) (e i j : Nat)
    (hcap : ctx.capacity = 2 ^ e) (he : e ≤ 32)
    (hi : i < ctx.capacity) (hj : j < ctx.capacity)
    (heq : pureSlot .linear ctx i = pureSlot .linear ctx j) : i = j := by
  have hdvd : (2 : Nat) ^ e ∣ 2 ^ 32 := Nat.pow_dvd_pow 2 he
  simp only [pureSlot] at heq
  rw [hcap] at heq hi hj
  rw [Nat.mod_mod_of_dvd _ hdvd, Nat.mod_mod_of_dvd _ hdvd] at heq
  have h' : i % 2 ^ e = j % 2 ^ e := Nat.ModEq.add_left_cancel' ctx.hash1 heq
  rwa [Nat.mod_eq_of_lt hi, Nat.mod_eq_of_lt hj] at h'

theorem pureSlot_doublehash_inj (ctx : probe_context) (e i j : Nat)
    (hcap : ctx.capacity = 2 ^ e) (he : e ≤ 32)
    (hodd : resolveH2 ctx % 2 = 1)
    (hi : i < ctx.capacity) (hj : j < ctx.capacity)
    (heq : pureSlot .doublehash ctx i = pureSlot .doublehash ctx j) : i = j := by
  have hdvd : (2 : Nat) ^ e ∣ 2 ^ 32 := Nat.pow_dvd_pow 2 he
  simp only [pureSlot] at heq
  rw [hcap] at heq hi hj
  rw [Nat.mod_mod_of_dvd _ hdvd, Nat.mod_mod_of_dvd _ hdvd] at heq
  exact mul_odd_mod_pow_two_inj hodd
    (Nat.ModEq.add_left_cancel' ctx.hash1 heq) hi hj

/-- The quadratic probe in closed form: the exact `double` computation
`hash1 + i*0.5 + i*0.5*i + 1` is the integer `hash1 + i*(i+1)/2 + 1`. -/
theorem probe_quadratic_closed (ctx : probe_context) (i : Nat) :
    pureSlot .quadratic ctx i = (ctx.hash1 + i * (i + 1) / 2 + 1) % ctx.capacity := by
  simp only [pureSlot]
  congr 1
  have h2 : (i * (i + 1) / 2 : Nat) * 2 = i * (i + 1) :=
    Nat.div_mul_cancel (Nat.even_mul_succ_self i).two_dvd
  have hexp : i * (i + 1) = i * i + i := by ring
  omega

theorem triangular_mod_pow_two_inj {e i j : Nat} (hi : i < 2 ^ e)
    (hj : j < 2 ^ e)
    (heq : i * (i + 1) / 2 ≡ j * (j + 1) / 2 [MOD 2 ^ e]) : i = j := by
  have key : ∀ {a b : Nat}, a ≤ b → b < 2 ^ e →
      a * (a + 1) / 2 ≡ b * (b + 1) / 2 [MOD 2 ^ e] → a = b := by
    intro a b hab hb hmod
    have hTa : (a * (a + 1) / 2 : Nat) * 2 = a * (a + 1) :=
      Nat.div_mul_cancel (Nat.even_mul_succ_self a).two_dvd
    have hTb : (b * (b + 1) / 2 : Nat) * 2 = b * (b + 1) :=
      Nat.div_mul_cancel (Nat.even_mul_succ_self b).two_dvd
    have hmono : a * (a + 1) / 2 ≤ b * (b + 1) / 2 :=
      Nat.div_le_div_right (Nat.mul_le_mul hab (by omega))
    obtain ⟨m, hm⟩ := (Nat.modEq_iff_dvd' hmono).mp hmod
    have hident : b * (b + 1) = a * (a + 1) + (b - a) * ((b - a) + 2 * a + 1) := by
      have hb' : b = a + (b - a) := by omega
      nlinarith [hb']
    have hdiff : (b - a) * ((b - a) + 2 * a + 1) = 2 * (2 ^ e * m) := by
      omega
    rcases Nat.even_or_odd (b - a) with hk | hk
    · -- b - a even, so the second factor is odd and 2^(e+1) divides b - a
      have hsodd : ((b - a) + 2 * a + 1) % 2 = 1 := by
        obtain ⟨c, hc⟩ := hk
        omega
      have hdvd2 : 2 ^ (e + 1) ∣ (b - a) * ((b - a) + 2 * a + 1) :=
        ⟨m, by rw [hdiff]; ring⟩
      have hka : 2 ^ (e + 1) ∣ (b - a) :=
        (coprime_two_pow_of_odd hsodd).dvd_of_dvd_mul_right hdvd2
      have hlt : b - a < 2 ^ (e + 1) := by
        have : (2 : Nat) ^ e ≤ 2 ^ (e + 1) := Nat.pow_le_pow_right (by norm_num) (by omega)
        omega
      have := Nat.eq_zero_of_dvd_of_lt hka
      omega
    · -- b - a odd: then 2^(e+1) would divide the odd-complement factor,
      -- which is positive and below 2^(e+1); contradiction
      have hkodd : (b - a) % 2 = 1 := Nat.odd_iff.mp hk
      have hdvd2 : 2 ^ (e + 1) ∣ (b - a) * ((b - a) + 2 * a + 1) :=
        ⟨m, by rw [hdiff]; ring⟩
      have hsa : 2 ^ (e + 1) ∣ ((b - a) + 2 * a + 1) :=
        (coprime_two_pow_of_odd hkodd).dvd_of_dvd_mul_left hdvd2
      have hle : 2 ^ (e + 1) ≤ (b - a) + 2 * a + 1 :=
        Nat.le_of_dvd (by omega) hsa
      have hlt : (b - a) + 2 * a + 1 < 2 ^ (e + 1) := by
        have h1 : a < 2 ^ e := by omega
        have h2' : (2 : Nat) ^ (e + 1) = 2 ^ e + 2 ^ e := by
          rw [Nat.pow_succ]; omega
        omega
      omega
  rcases Nat.le_total i j with hle | hle
  · exact key hle hj heq
  · exact (key hle hi heq.symm).symm

theorem pureSlot_quadratic_inj (ctx : probe_context) (e i j : Nat)
    (hcap : ctx.capacity = 2 ^ e)
    (hi : i < ctx.capacity) (hj : j < ctx.capacity)
    (heq : pureSlot .quadratic ctx i = pureSlot .quadratic ctx j) : i = j := by
  rw [probe_quadratic_closed, probe_quadratic_closed] at heq
  rw [hcap] at heq hi hj
  have h1 : ctx.hash1 + i * (i + 1) / 2 ≡ ctx.hash1 + j * (j + 1) / 2 [MOD 2 ^ e] :=
    Nat.ModEq.add_right_cancel' 1 heq
  exact triangular_mod_pow_two_inj hi hj
    (Nat.ModEq.add_left_cancel' ctx.hash1 h1)

/-- Every probe strategy of the program is a full cycle: on a context with
power-of-two capacity `2 ^ e` (`e ≤ 32`) and an unresolved secondary-hash
cache (`hash2 = 0`, as `hash_table_add` always builds it), distinct attempt
indices below the capacity give distinct slots. -/
theorem pureSlot_inj (pk : ProbeKind) (ctx : probe_context) (e : Nat)
    (hcap : ctx.capacity = 2 ^ e) (he : e ≤ 32) (h2 : ctx.hash2 = 0)
    {i j : Nat} (hi : i < ctx.capacity) (hj : j < ctx.capacity)
    (heq : pureSlot pk ctx i = pureSlot pk ctx j) : i = j := by
  cases pk with
  | linear => exact pureSlot_linear_inj ctx e i j hcap he hi hj heq
  | quadratic => exact pureSlot_quadratic_inj ctx e i j hcap hi hj heq
  | doublehash =>
    have hodd : resolveH2 ctx % 2 = 1 := by
      rw [resolveH2, if_pos h2]
      exact hash2_odd _ _
    exact pureSlot_doublehash_inj ctx e i j hcap he hodd hi hj heq

/-- Full-cycle surjectivity: every slot index is probed by some attempt
index below the capacity. -/
theorem pureSlot_surj (pk : ProbeKind) (ctx : probe_context) (e : Nat)
    (hcap : ctx.capacity = 2 ^ e) (he : e ≤ 32) (h2 : ctx.hash2 = 0) :
    ∀ f < ctx.capacity, ∃ i < ctx.capacity, pureSlot pk ctx i = f := by
  intro f hf
  have hpos : 0 < ctx.capacity := by rw [hcap]; positivity
  have himg : (Finset.range ctx.capacity).image (pureSlot pk ctx)
      = Finset.range ctx.capacity := by
    apply Finset.eq_of_subset_of_card_le
    · intro x hx
      simp only [Finset.mem_image, Finset.mem_range] at hx ⊢
      obtain ⟨a, _, rfl⟩ := hx
      exact pureSlot_lt pk ctx a hpos
    · rw [Finset.card_image_of_injOn, Finset.card_range]
      intro a ha b hb hab
      simp only [Finset.coe_range, Set.mem_Iio] at ha hb
      exact pureSlot_inj pk ctx e hcap he h2 ha hb hab
  have hmem : f ∈ (Finset.range ctx.capacity).image (pureSlot pk ctx) := by
    rw [himg]
    simpa using hf
  simpa using hmem

/-! ### Behaviour of the insertion probe loop -/

theorem addLoop_of_not_inserted (pk : ProbeKind) (v : Int) :
    ∀ (L : List Nat) (ctx : probe_context) (vals : List hash_table_entry),
      (addLoop pk v L ctx vals).inserted = false →
      (addLoop pk v L ctx vals).vals = vals ∧
      (addLoop pk v L ctx vals).colls = L.length := by
  intro L
  induction L with
  | nil => intro ctx vals _; exact ⟨rfl, rfl⟩
  | cons i rest ih =>
    intro ctx vals hins
    by_cases hocc : (vals.getD (probeStep pk ctx i).1 ⟨false, 0⟩).exists = true
    · simp only [addLoop, if_pos hocc] at hins ⊢
      obtain ⟨h1, h2⟩ := ih (probeStep pk ctx i).2 vals hins
      exact ⟨h1, by rw [h2, List.length_cons]⟩
    · simp only [addLoop, if_neg hocc] at hins
      exact Bool.noConfusion hins

theorem addLoop_colls_lt_of_inserted (pk : ProbeKind) (v : Int) :
    ∀ (L : List Nat) (ctx : probe_context) (vals : List hash_table_entry),
      (addLoop pk v L ctx vals).inserted = true →
      (addLoop pk v L ctx vals).colls < L.length := by
  intro L
  induction L with
  | nil => intro ctx vals hins; simp [addLoop] at hins
  | cons i rest ih =>
    intro ctx vals hins
    by_cases hocc : (vals.getD (probeStep pk ctx i).1 ⟨false, 0⟩).exists = true
    · simp only [addLoop, if_pos hocc] at hins ⊢
      have := ih (probeStep pk ctx i).2 vals hins
      simp only [List.length_cons]
      omega
    · simp only [addLoop, if_neg hocc, List.length_cons]
      omega

theorem addLoop_count_of_inserted (pk : ProbeKind) (v : Int) :
    ∀ (L : List Nat) (ctx : probe_context) (vals : List hash_table_entry),
      vals.length = ctx.capacity → 0 < ctx.capacity →
      (addLoop pk v L ctx vals).inserted = true →
      (addLoop pk v L ctx vals).vals.length = vals.length ∧
      occupiedCount (addLoop pk v L ctx vals).vals = occupiedCount vals + 1 := by
  intro L
  induction L with
  | nil => intro ctx vals _ _ hins; simp [addLoop] at hins
  | cons i rest ih =>
    intro ctx vals hlen hpos hins
    by_cases hocc : (vals.getD (probeStep pk ctx i).1 ⟨false, 0⟩).exists = true
    · simp only [addLoop, if_pos hocc] at hins ⊢
      exact ih (probeStep pk ctx i).2 vals
        (by rw [hlen, probeStep_capacity]) (by rw [probeStep_capacity]; exact hpos)
        hins
    · simp only [addLoop, if_neg hocc]
      have hjlt : (probeStep pk ctx i).1 < vals.length := by
        rw [hlen, probeStep_fst]
        exact pureSlot_lt pk ctx i hpos
      have hfree : (vals.getD (probeStep pk ctx i).1 ⟨false, 0⟩).exists = false := by
        simpa using hocc
      exact ⟨List.length_set .., occupiedCount_set_true vals _ v hjlt hfree⟩

theorem addLoop_monotone (pk : ProbeKind) (v : Int) :
    ∀ (L : List Nat) (ctx : probe_context) (vals : List hash_table_entry) (k : Nat),
      (vals.getD k ⟨false, 0⟩).exists = true →
      ((addLoop pk v L ctx vals).vals.getD k ⟨false, 0⟩).exists = true := by
  intro L
  induction L with
  | nil => intro ctx vals k h; exact h
  | cons i rest ih =>
    intro ctx vals k h
    by_cases hocc : (vals.getD (probeStep pk ctx i).1 ⟨false, 0⟩).exists = true
    · simp only [addLoop, if_pos hocc]
      exact ih (probeStep pk ctx i).2 vals k h
    · simp only [addLoop, if_neg hocc]
      exact getD_set_monotone vals _ k v h

theorem addLoop_inserted_of_free (pk : ProbeKind) (v : Int) :
    ∀ (L : List Nat) (ctx : probe_context) (vals : List hash_table_entry),
      (∃ i ∈ L, (vals.getD (pureSlot pk ctx i) ⟨false, 0⟩).exists = false) →
      (addLoop pk v L ctx vals).inserted = true := by
  intro L
  induction L with
  | nil => intro ctx vals h; simp at h
  | cons i rest ih =>
    intro ctx vals h
    by_cases hocc : (vals.getD (probeStep pk ctx i).1 ⟨false, 0⟩).exists = true
    · simp only [addLoop, if_pos hocc]
      apply ih (probeStep pk ctx i).2 vals
      obtain ⟨i0, hmem, hfree⟩ := h
      rcases List.mem_cons.mp hmem with rfl | hmem'
      · rw [probeStep_fst] at hocc
        rw [hocc] at hfree
        cases hfree
      · exact ⟨i0, hmem', by rw [pureSlot_probeStep]; exact hfree⟩
    · simp only [addLoop, if_neg hocc]

/-! ### Behaviour of a single insertion -/

theorem addCtx_capacity (t : hash_table) (v : Int) :
    (addCtx t v).capacity = t.capacity := rfl

theorem addCtx_hash2 (t : hash_table) (v : Int) :
    (addCtx t v).hash2 = 0 := rfl

theorem hash_table_add_capacity (t : hash_table) (v : Int) :
    (hash_table_add t v).1.capacity = t.capacity := rfl

theorem hash_table_add_probe (t : hash_table) (v : Int) :
    (hash_table_add t v).1.probe = t.probe := rfl

theorem hash_table_add_hash_ctx (t : hash_table) (v : Int) :
    (hash_table_add t v).1.hash_ctx = t.hash_ctx := rfl

theorem hash_table_add_pow2exp (t : hash_table) (v : Int) :
    (hash_table_add t v).1.capacity_pow2exp = t.capacity_pow2exp := rfl

/-- A not-yet-full table with power-of-two capacity always absorbs the
value: some attempt finds a free slot, the entry counter increments, and
the collision count stays below the capacity (no "Table full" report). -/
theorem hash_table_add_success (t : hash_table) (v : Int)
    (hlen : t.values.length = t.capacity)
    (hcap : t.capacity = 2 ^ t.capacity_pow2exp)
    (he : t.capacity_pow2exp ≤ 32)
    (hcount : occupiedCount t.values < t.capacity) :
    (hash_table_add t v).1.entries = t.entries + 1 ∧
    (hash_table_add t v).2 < t.capacity ∧
    occupiedCount (hash_table_add t v).1.values = occupiedCount t.values + 1 ∧
    (hash_table_add t v).1.values.length = t.capacity := by
  have hpos : 0 < t.capacity := by rw [hcap]; positivity
  obtain ⟨f, hflt, hfree⟩ := exists_free_of_count_lt t.values (by omega)
  have hflt' : f < (addCtx t v).capacity := by rw [addCtx_capacity]; omega
  obtain ⟨i, hilt, hslot⟩ := pureSlot_surj t.probe (addCtx t v)
    t.capacity_pow2exp (by rw [addCtx_capacity]; exact hcap) he rfl f hflt'
  have hins : (addLoop t.probe v (List.range t.capacity)
      (addCtx t v) t.values).inserted = true := by
    apply addLoop_inserted_of_free
    refine ⟨i, ?_, ?_⟩
    · rw [List.mem_range]
      rw [addCtx_capacity] at hilt
      exact hilt
    · rw [hslot]
      exact hfree
  obtain ⟨hlen', hcount'⟩ := addLoop_count_of_inserted t.probe v
    (List.range t.capacity) (addCtx t v) t.values
    (by rw [addCtx_capacity]; exact hlen) (by rw [addCtx_capacity]; exact hpos) hins
  have hcolls := addLoop_colls_lt_of_inserted t.probe v
    (List.range t.capacity) (addCtx t v) t.values hins
  rw [List.length_range] at hcolls
  refine ⟨?_, hcolls, hcount', by rw [← hlen]; exact hlen'⟩
  show t.entries + (if (addLoop t.probe v (List.range t.capacity)
    (addCtx t v) t.values).inserted then 1 else 0) = t.entries + 1
  rw [hins]
  rfl

theorem insertSeq_nil (t : hash_table) : insertSeq t [] = t := rfl

theorem insertSeq_cons (t : hash_table) (v : Int) (vs : List Int) :
    insertSeq t (v :: vs) = insertSeq (hash_table_add t v).1 vs := rfl

theorem insertSeq_append (t : hash_table) (vs vs' : List Int) :
    insertSeq t (vs ++ vs') = insertSeq (insertSeq t vs) vs' :=
  List.foldl_append _ _ _ _

theorem addAllReportsFull_cons (t : hash_table) (v : Int) (vs : List Int) :
    addAllReportsFull t (v :: vs) =
      (addReportsFull t v || addAllReportsFull (hash_table_add t v).1 vs) := rfl

/-- Batch insertion into a power-of-two-capacity table with enough room:
no insertion reports "Table full", and the counters advance by exactly the
number of inserted values. -/
theorem insertSeq_success : ∀ (vs : List Int) (t : hash_table),
    t.values.length = t.capacity →
    t.capacity = 2 ^ t.capacity_pow2exp →
    t.capacity_pow2exp ≤ 32 →
    occupiedCount t.values + vs.length ≤ t.capacity →
    addAllReportsFull t vs = false ∧
    (insertSeq t vs).entries = t.entries + vs.length ∧
    occupiedCount (insertSeq t vs).values = occupiedCount t.values + vs.length ∧
    (insertSeq t vs).values.length = t.capacity ∧
    (insertSeq t vs).capacity = t.capacity := by
  intro vs
  induction vs with
  | nil => intro t h1 _ _ _; exact ⟨rfl, rfl, rfl, h1, rfl⟩
  | cons v vs ih =>
    intro t hlen hcap he hbud
    have hbud' : occupiedCount t.values + vs.length + 1 ≤ t.capacity := by
      simpa [Nat.add_assoc, Nat.add_comm 1 vs.length] using hbud
    have hcount : occupiedCount t.values < t.capacity := by omega
    obtain ⟨hent, hcolls, hcnt, hlen'⟩ := hash_table_add_success t v hlen hcap he hcount
    have hcap' : (hash_table_add t v).1.capacity = t.capacity :=
      hash_table_add_capacity t v
    obtain ⟨hrep, hent2, hcnt2, hlen2, hcap2⟩ := ih (hash_table_add t v).1
      (by rw [hlen', hcap'])
      (by rw [hcap', hash_table_add_pow2exp]; exact hcap)
      (by rw [hash_table_add_pow2exp]; exact he)
      (by rw [hcnt, hcap']; omega)
    refine ⟨?_, ?_, ?_, ?_, ?_⟩
    · rw [addAllReportsFull_cons, hrep]
      have hfirst : addReportsFull t v = false := by
        simp only [addReportsFull, beq_eq_false_iff_ne]
        omega
      rw [hfirst]
      rfl
    · rw [insertSeq_cons, hent2, hent, List.length_cons]
      omega
    · rw [insertSeq_cons, hcnt2, hcnt, List.length_cons]
      omega
    · rw [insertSeq_cons, hlen2, hcap']
    · rw [insertSeq_cons, hcap2, hcap']

/-- Book-keeping invariant of a table: the slot list has exactly `capacity`
slots and the `entries` counter equals the number of occupied slots. -/
def WFTable (t : hash_table) : Prop :=
  t.values.length = t.capacity ∧ t.entries = occupiedCount t.values

theorem WFTable_add (t : hash_table) (v : Int) (h : WFTable t) :
    WFTable (hash_table_add t v).1 := by
  obtain ⟨hlen, hent⟩ := h
  rcases Nat.eq_zero_or_pos t.capacity with hz | hpos
  · have hrange : List.range t.capacity = [] := by rw [hz]; rfl
    constructor
    · show (addLoop t.probe v (List.range t.capacity)
        (addCtx t v) t.values).vals.length = t.capacity
      rw [hrange]
      exact hlen
    · show t.entries + (if (addLoop t.probe v (List.range t.capacity)
        (addCtx t v) t.values).inserted then 1 else 0) =
        occupiedCount (addLoop t.probe v (List.range t.capacity)
          (addCtx t v) t.values).vals
      rw [hrange]
      exact hent
  · cases hins : (addLoop t.probe v (List.range t.capacity)
      (addCtx t v) t.values).inserted with
    | true =>
      obtain ⟨hlen', hcnt'⟩ := addLoop_count_of_inserted t.probe v
        (List.range t.capacity) (addCtx t v) t.values
        (by rw [addCtx_capacity]; exact hlen) (by rw [addCtx_capacity]; exact hpos)
        hins
      constructor
      · show (addLoop t.probe v (List.range t.capacity)
          (addCtx t v) t.values).vals.length = t.capacity
        rw [hlen', hlen]
      · show t.entries + (if (addLoop t.probe v (List.range t.capacity)
          (addCtx t v) t.values).inserted then 1 else 0) =
          occupiedCount (addLoop t.probe v (List.range t.capacity)
            (addCtx t v) t.values).vals
        rw [hins, hcnt', hent]
        rfl
    | false =>
      obtain ⟨hvals, _⟩ := addLoop_of_not_inserted t.probe v
        (List.range t.capacity) (addCtx t v) t.values hins
      constructor
      · show (addLoop t.probe v (List.range t.capacity)
          (addCtx t v) t.values).vals.length = t.capacity
        rw [hvals, hlen]
      · show t.entries + (if (addLoop t.probe v (List.range t.capacity)
          (addCtx t v) t.values).inserted then 1 else 0) =
          occupiedCount (addLoop t.probe v (List.range t.capacity)
            (addCtx t v) t.values).vals
        rw [hins, hvals, hent]
        rfl

theorem WFTable_insertSeq : ∀ (vs : List Int) (t : hash_table),
    WFTable t → WFTable (insertSeq t vs) := by
  intro vs
  induction vs with
  | nil => intro t h; exact h
  | cons v vs ih =>
    intro t h
    rw [insertSeq_cons]
    exact ih _ (WFTable_add t v h)

theorem insertSeq_monotone : ∀ (vs : List Int) (t : hash_table) (k : Nat),
    (t.values.getD k ⟨false, 0⟩).exists = true →
    ((insertSeq t vs).values.getD k ⟨false, 0⟩).exists = true := by
  intro vs
  induction vs with
  | nil => intro t k h; exact h
  | cons v vs ih =>
    intro t k h
    rw [insertSeq_cons]
    apply ih
    show (((addLoop t.probe v (List.range t.capacity)
      (addCtx t v) t.values).vals).getD k ⟨false, 0⟩).exists = true
    exact addLoop_monotone t.probe v (List.range t.capacity)
      (addCtx t v) t.values k h

theorem insertSeq_capacity : ∀ (vs : List Int) (t : hash_table),
    (insertSeq t vs).capacity = t.capacity := by
  intro vs
  induction vs with
  | nil => intro t; rfl
  | cons v vs ih =>
    intro t
    rw [insertSeq_cons, ih, hash_table_add_capacity]

theorem occupiedCount_replicate_false (n : Nat) :
    occupiedCount (List.replicate n ⟨false, 0⟩) = 0 := by
  rw [occupiedCount, List.countP_eq_zero]
  intro a ha
  rw [List.eq_of_mem_replicate ha]
  simp

theorem hash_table_create_capacity (mc : Nat) (pk : ProbeKind) :
    (hash_table_create mc pk).capacity = pow2_round mc := rfl

theorem hash_table_create_values (mc : Nat) (pk : ProbeKind) :
    (hash_table_create mc pk).values
      = List.replicate (pow2_round mc) ⟨false, 0⟩ := rfl

theorem hash_table_create_entries (mc : Nat) (pk : ProbeKind) :
    (hash_table_create mc pk).entries = 0 := rfl

theorem pow2exp_loop_le (value : Nat) (hv : value < 2 ^ 32) :
    ∀ i, pow2exp_loop value i ≤ 32 := by
  intro i
  induction i with
  | zero => exact Nat.zero_le _
  | succ k ih =>
    unfold pow2exp_loop
    split
    · next hb =>
      have hge := Nat.testBit_implies_ge hb
      have : (2 : Nat) ^ (k + 1) < 2 ^ 32 := by omega
      have := (Nat.pow_lt_pow_iff_right (by norm_num : 1 < 2)).mp this
      omega
    · exact ih

/-- Every table the program creates from a 32-bit requested capacity is a
fresh table in the sense of `Fresh`. -/
theorem hash_table_create_fresh (mc : Nat) (pk : ProbeKind)
    (h : mc < 2 ^ 32) : Fresh (hash_table_create mc pk) := by
  refine ⟨rfl, rfl, ?_, ?_⟩
  · show pow2_round mc = 2 ^ pow2_round_exponent mc
    rw [pow2_round, Nat.shiftLeft_eq, Nat.one_mul]
  · show pow2_round_exponent mc ≤ 32
    unfold pow2_round_exponent
    split
    · exact Nat.zero_le _
    · exact pow2exp_loop_le mc h 62

/-! ## Claims -/

/-- C1: For every table with capacity `C` created empty and using the
linear or double-hashing probe strategy, inserting `C` distinct keys never
reports `TableFull` (every insertion finds a free slot within `C` probe
attempts) and afterwards the table's `entries` counter equals `C`. -/
theorem insert_capacity_values_no_tablefull (t : hash_table) (vs : List Int)
    (hfresh : Fresh t)
    (_hpk : t.probe = ProbeKind.linear ∨ t.probe = ProbeKind.doublehash)
    (hlen : vs.length = t.capacity) (_hnd : vs.Nodup) :
    addAllReportsFull t vs = false ∧ (insertSeq t vs).entries = t.capacity := by
  obtain ⟨hvals, hent, hcap, he⟩ := hfresh
  have hcount0 : occupiedCount t.values = 0 := by
    rw [hvals]; exact occupiedCount_replicate_false _
  have hlenv : t.values.length = t.capacity := by
    rw [hvals, List.length_replicate]
  obtain ⟨hrep, hent', _, _, _⟩ := insertSeq_success vs t hlenv hcap he
    (by rw [hcount0, hlen]; omega)
  exact ⟨hrep, by rw [hent', hent, hlen]; omega⟩

/-- Witness for C1: a fresh capacity-4 linear-probing table absorbs four
distinct keys with no "Table full" report and ends with `entries = 4`. -/
theorem insert_capacity_values_no_tablefull_witness :
    addAllReportsFull (hash_table_create 2 ProbeKind.linear) [0, 1, 2, 3] = false ∧
    (insertSeq (hash_table_create 2 ProbeKind.linear) [0, 1, 2, 3]).entries
      = (hash_table_create 2 ProbeKind.linear).capacity :=
  insert_capacity_values_no_tablefull _ _ (by decide) (Or.inl rfl)
    (by decide) (by decide)

/-- C3 counterexample: at `n = 1` the most significant set bit is at
position `p = 0`, so the claim demands capacity `2^(0+1) = 2` and exponent
1; the code returns capacity 1 with exponent 0, because the scan loop
`for (i = bits - 2; i > 0; i--)` never examines bit 0. -/
theorem pow2_round_one_counterexample :
    pow2_round_exponent 1 = 0 ∧ pow2_round 1 = 1 ∧
    pow2_round 1 ≠ 2 ^ (0 + 1) ∧ pow2_round_exponent 1 ≠ 0 + 1 := by
  decide

/-- C3 amended: for every `n` whose most significant set bit is at position
`p` with `1 ≤ p < 63`, the capacity planner returns `2^(p+1)` and exposes
the exponent `p + 1`.  (For `n = 1` — bit position 0 — it returns `2^0 = 1`
with exponent 0 instead, and inputs with bit 63 set fall into the
undefined-behaviour guard of the C code.) -/
theorem pow2_round_next_power_of_msb (n p : Nat) (hp1 : 1 ≤ p) (hp63 : p < 63)
    (hbit : n.testBit p = true) (habove : ∀ j, p < j → n.testBit j = false) :
    pow2_round_exponent n = p + 1 ∧ pow2_round n = 2 ^ (p + 1) := by
  have hloop : ∀ i, p ≤ i → pow2exp_loop n i = p + 1 := by
    intro i
    induction i with
    | zero => intro h0; omega
    | succ k ih =>
      intro hpk
      unfold pow2exp_loop
      by_cases hb : n.testBit (k + 1) = true
      · rw [if_pos hb]
        have hle : k + 1 ≤ p := by
          by_contra hgt
          push_neg at hgt
          rw [habove (k + 1) hgt] at hb
          cases hb
        omega
      · rw [if_neg hb]
        have hne : p ≠ k + 1 := by
          intro hpe
          rw [hpe] at hbit
          exact hb hbit
        exact ih (by omega)
  have h63 : n.testBit 63 = false := habove 63 (by omega)
  constructor
  · rw [pow2_round_exponent, if_neg (by simp [h63])]
    exact hloop 62 (by omega)
  · rw [pow2_round, pow2_round_exponent, if_neg (by simp [h63]),
      hloop 62 (by omega), Nat.shiftLeft_eq, Nat.one_mul]

/-- Witness for the amended C3: `n = 100` has its top bit at position 6,
and the planner returns `128 = 2^7` with exponent 7. -/
theorem pow2_round_next_power_of_msb_witness :
    pow2_round_exponent 100 = 6 + 1 ∧ pow2_round 100 = 2 ^ (6 + 1) :=
  pow2_round_next_power_of_msb 100 6 (by norm_num) (by norm_num) (by decide)
    (fun j hj => Nat.testBit_lt_two_pow
      (Nat.lt_of_lt_of_le (by norm_num) (Nat.pow_le_pow_right (by norm_num) hj)))

/-- C4 counterexample: the table `hash_table_create 1` has the power-of-two
capacity `2^0 = 1`, and the secondary hash of any key is then `0 ||| 1 = 1`,
which is odd but does **not** lie in `[0, 1)`. -/
theorem hash2_capacity_one_counterexample :
    (hash_table_create 1 ProbeKind.doublehash).hash_ctx.capacity = 2 ^ 0 ∧
    ¬ (hash2 (hash_table_create 1 ProbeKind.doublehash).hash_ctx 0
        < (hash_table_create 1 ProbeKind.doublehash).hash_ctx.capacity) := by
  decide

/-- C4 amended: for every hash context whose capacity is the power of two
`2^exponent` with `exponent ≥ 1`, the secondary (folding) hash of any key
is odd and lies in `[0, capacity)`.  (The excluded capacity `2^0 = 1` is
the counterexample: there the result is 1, outside `[0, 1)`.) -/
theorem hash2_odd_in_range (ctx : hash_context) (key : Int)
    (hcap : ctx.capacity = 2 ^ ctx.capacity_pow2exp)
    (he1 : 1 ≤ ctx.capacity_pow2exp) :
    hash2 ctx key % 2 = 1 ∧ hash2 ctx key < ctx.capacity :=
  ⟨hash2_odd ctx key, hash2_lt ctx key hcap he1⟩

/-- Witness for the amended C4 at the capacity-8 context built by
`hash_table_create 5`. -/
theorem hash2_odd_in_range_witness :
    hash2 (hash_table_create 5 ProbeKind.doublehash).hash_ctx 12345 % 2 = 1 ∧
    hash2 (hash_table_create 5 ProbeKind.doublehash).hash_ctx 12345
      < (hash_table_create 5 ProbeKind.doublehash).hash_ctx.capacity :=
  hash2_odd_in_range _ 12345 (by decide) (by decide)

/-- C5: for every key and every context with power-of-two capacity
`C = 2^e` (`e ≤ 32`, covering `unsigned int` hashing) whose lazy secondary
hash cache starts empty — exactly how `hash_table_add` builds it — the
double-hashing probe sequence `(hash1 + i * hash2) mod C` is a permutation
of `[0, C)` over attempt indices `i < C`: distinct attempt indices yield
distinct slots, and every slot is reached. -/
theorem doublehash_probe_permutation (ctx : probe_context) (e : Nat)
    (hcap : ctx.capacity = 2 ^ e) (he : e ≤ 32) (h2 : ctx.hash2 = 0) :
    (∀ i j, i < ctx.capacity → j < ctx.capacity → i ≠ j →
      (probeStep ProbeKind.doublehash ctx i).1
        ≠ (probeStep ProbeKind.doublehash ctx j).1) ∧
    (∀ f, f < ctx.capacity → ∃ i, i < ctx.capacity ∧
      (probeStep ProbeKind.doublehash ctx i).1 = f) := by
  constructor
  · intro i j hi hj hne heq
    rw [probeStep_fst, probeStep_fst] at heq
    exact hne (pureSlot_inj ProbeKind.doublehash ctx e hcap he h2 hi hj heq)
  · intro f hf
    obtain ⟨i, hi, hslot⟩ := pureSlot_surj ProbeKind.doublehash ctx e hcap he h2 f hf
    exact ⟨i, hi, by rw [probeStep_fst]; exact hslot⟩

/-- Witness for C5 at the probe context `hash_table_add` builds for key 7
on a fresh capacity-4 double-hashing table. -/
theorem doublehash_probe_permutation_witness :
    (∀ i j, i < (addCtx (hash_table_create 2 ProbeKind.doublehash) 7).capacity →
      j < (addCtx (hash_table_create 2 ProbeKind.doublehash) 7).capacity → i ≠ j →
      (probeStep ProbeKind.doublehash
        (addCtx (hash_table_create 2 ProbeKind.doublehash) 7) i).1
        ≠ (probeStep ProbeKind.doublehash
        (addCtx (hash_table_create 2 ProbeKind.doublehash) 7) j).1) ∧
    (∀ f, f < (addCtx (hash_table_create 2 ProbeKind.doublehash) 7).capacity →
      ∃ i, i < (addCtx (hash_table_create 2 ProbeKind.doublehash) 7).capacity ∧
      (probeStep ProbeKind.doublehash
        (addCtx (hash_table_create 2 ProbeKind.doublehash) 7) i).1 = f) :=
  doublehash_probe_permutation _ 2 (by decide) (by norm_num) (by decide)

/-- C6 counterexample: with primary hash 0, attempt index 0 and capacity 8
(the context `hash_table_add` builds for key 0 on `hash_table_create 5`),
the code's quadratic probe yields slot 1, not the claimed
`(0 + 0*(0+1)/2) mod 8 = 0`: the C expression carries a constant `+ 1`
absent from the claimed formula, and is `double`, not integer, arithmetic. -/
theorem probe_quadratic_counterexample :
    (probe_quadratic (addCtx (hash_table_create 5 ProbeKind.quadratic) 0) 0).1
      ≠ ((addCtx (hash_table_create 5 ProbeKind.quadratic) 0).hash1
          + 0 * (0 + 1) / 2) %
        (addCtx (hash_table_create 5 ProbeKind.quadratic) 0).capacity := by
  decide

/-- C6 amended: for every primary hash, capacity, and attempt index
`i < 2^26` — the domain on which the C `double` arithmetic is exact,
covering every attempt of every table with capacity up to `2^26` — the
quadratic probe returns `(hash1 + i*(i+1)/2 + 1) mod capacity`: the
triangular-number term plus a constant offset of 1, computed through
`double` arithmetic rather than incremental integer terms.  For larger
attempt indices the doubles round and no such closed form holds of the
source. -/
theorem probe_quadratic_triangular_plus_one (ctx : probe_context) (i : Nat)
    (_hi : i < 2 ^ 26) :
    (probe_quadratic ctx i).1
      = (ctx.hash1 + i * (i + 1) / 2 + 1) % ctx.capacity :=
  probe_quadratic_closed ctx i

/-- Witness for the amended C6 at the context `hash_table_add` builds for
key 3 on a capacity-8 quadratic table, attempt index 3. -/
theorem probe_quadratic_triangular_plus_one_witness :
    (probe_quadratic (addCtx (hash_table_create 5 ProbeKind.quadratic) 3) 3).1
      = ((addCtx (hash_table_create 5 ProbeKind.quadratic) 3).hash1
          + 3 * (3 + 1) / 2 + 1) %
        (addCtx (hash_table_create 5 ProbeKind.quadratic) 3).capacity :=
  probe_quadratic_triangular_plus_one _ 3 (by norm_num)

/-- C7 counterexample: the capacity-8 context built by
`hash_table_create 5` (multiplicative constant 4, exponent 3) hashes the
`int` key `2^30` to `(2^30 * 4) >> (32 - 3) = 8`, outside `[0, 8)`: the
shift keeps far more than the top `exponent` bits of the 64-bit product. -/
theorem hash1_range_counterexample :
    (hash_table_create 5 ProbeKind.linear).hash_ctx.capacity = 8 ∧
    ¬ (hash1 (hash_table_create 5 ProbeKind.linear).hash_ctx (2 ^ 30)
        < (hash_table_create 5 ProbeKind.linear).hash_ctx.capacity) := by
  decide

/-- C7 amended: `hash1` is the 64-bit product `key * mult_A` shifted right
by `32 - exponent` bits (the width of `int` minus the exponent, not the
width of the product) and truncated to 32 bits; it is **not** bounded by
the capacity.  For contexts with `mult_A < capacity` (as
`hash_context_init` produces), exponent in `[1, 32]`, and nonnegative
`int` keys, the result lies below `2^(2*exponent - 1)`. -/
theorem hash1_bounded (ctx : hash_context) (key : Int)
    (hA : ctx.mult_A < 2 ^ ctx.capacity_pow2exp)
    (he1 : 1 ≤ ctx.capacity_pow2exp) (he : ctx.capacity_pow2exp ≤ 32)
    (hk0 : 0 ≤ key) (hk : key < 2 ^ 31) :
    hash1 ctx key < 2 ^ (2 * ctx.capacity_pow2exp - 1) := by
  unfold hash1
  have hkey : key % (2 ^ 64 : Int) = key := Int.emod_eq_of_lt hk0 (by omega)
  rw [hkey]
  have hkn : key.toNat < 2 ^ 31 := by omega
  have hprod : key.toNat * ctx.mult_A < 2 ^ (31 + ctx.capacity_pow2exp) := by
    calc key.toNat * ctx.mult_A < 2 ^ 31 * 2 ^ ctx.capacity_pow2exp :=
          Nat.mul_lt_mul'' hkn hA
      _ = 2 ^ (31 + ctx.capacity_pow2exp) := by rw [← Nat.pow_add]
  have hmod : key.toNat * ctx.mult_A % 2 ^ 64 = key.toNat * ctx.mult_A :=
    Nat.mod_eq_of_lt (Nat.lt_of_lt_of_le hprod
      (Nat.pow_le_pow_right (by norm_num) (by omega)))
  rw [hmod, Nat.shiftRight_eq_div_pow]
  have hdiv : key.toNat * ctx.mult_A / 2 ^ (32 - ctx.capacity_pow2exp)
      < 2 ^ (2 * ctx.capacity_pow2exp - 1) := by
    apply Nat.div_lt_of_lt_mul
    calc key.toNat * ctx.mult_A < 2 ^ (31 + ctx.capacity_pow2exp) := hprod
      _ = 2 ^ (32 - ctx.capacity_pow2exp)
          * 2 ^ (2 * ctx.capacity_pow2exp - 1) := by
          rw [← Nat.pow_add]
          congr 1
          omega
  exact Nat.lt_of_le_of_lt (Nat.mod_le _ _) hdiv

/-- Witness for the amended C7 at the capacity-8 context of
`hash_table_create 5` and key 12345. -/
theorem hash1_bounded_witness :
    hash1 (hash_table_create 5 ProbeKind.linear).hash_ctx 12345
      < 2 ^ (2 * (hash_table_create 5
          ProbeKind.linear).hash_ctx.capacity_pow2exp - 1) :=
  hash1_bounded _ 12345 (by decide) (by decide) (by decide) (by decide)
    (by decide)

/-- C8: every slot of a freshly created table starts empty; a slot that is
occupied after some insertions remains occupied after any further
insertions (it never reverts, so it transitions empty→occupied at most
once); and `entries ≤ capacity` holds after every batch of insertions. -/
theorem slot_lifecycle (mc : Nat) (pk : ProbeKind) :
    (∀ j : Nat,
      ((hash_table_create mc pk).values.getD j ⟨false, 0⟩).exists = false) ∧
    (∀ (vs vs' : List Int) (j : Nat),
      ((insertSeq (hash_table_create mc pk) vs).values.getD j
        ⟨false, 0⟩).exists = true →
      ((insertSeq (hash_table_create mc pk) (vs ++ vs')).values.getD j
        ⟨false, 0⟩).exists = true) ∧
    (∀ vs : List Int,
      (insertSeq (hash_table_create mc pk) vs).entries ≤
        (insertSeq (hash_table_create mc pk) vs).capacity) := by
  refine ⟨?_, ?_, ?_⟩
  · intro j
    rw [hash_table_create_values, List.getD_eq_getElem?_getD,
      List.getElem?_replicate]
    split <;> rfl
  · intro vs vs' j h
    rw [insertSeq_append]
    exact insertSeq_monotone vs' _ j h
  · intro vs
    have hwf : WFTable (hash_table_create mc pk) := by
      constructor
      · rw [hash_table_create_values, hash_table_create_capacity,
          List.length_replicate]
      · rw [hash_table_create_entries, hash_table_create_values,
          occupiedCount_replicate_false]
    obtain ⟨hlen, hent⟩ := WFTable_insertSeq vs _ hwf
    calc (insertSeq (hash_table_create mc pk) vs).entries
        = occupiedCount (insertSeq (hash_table_create mc pk) vs).values := hent
      _ ≤ (insertSeq (hash_table_create mc pk) vs).values.length :=
          occupiedCount_le_length _
      _ = (insertSeq (hash_table_create mc pk) vs).capacity := hlen

/-- Witness for C8: the slot key 5 occupies in a capacity-4 table stays
occupied after a further insertion. -/
theorem slot_lifecycle_witness :
    ((insertSeq (hash_table_create 2 ProbeKind.linear) ([5] ++ [6])).values.getD 0
      ⟨false, 0⟩).exists = true :=
  (slot_lifecycle 2 ProbeKind.linear).2.1 [5] [6] 0 (by decide)

/-- C10: for each of the three probe strategies, every context with
positive capacity, and every attempt index below the capacity, the slot
index returned by the probe function is strictly below the capacity — with
no assumption that the primary hash stored in the context is below the
capacity — so the slot-array accesses `table->values[j]` of the insertion
loop are in bounds. -/
theorem probe_slot_in_bounds (pk : ProbeKind) (ctx : probe_context) (i : Nat)
    (hpos : 0 < ctx.capacity) (_hi : i < ctx.capacity) :
    (probeStep pk ctx i).1 < ctx.capacity := by
  rw [probeStep_fst]
  exact pureSlot_lt pk ctx i hpos

/-- A probe context whose primary hash (1000) is far above its capacity
(8), exercising the "even when the primary hash is not below C" part of
the bounds claim. -/
def ctxOut : probe_context :=
  { hash_ctx := { mult_A := 4, capacity_pow2exp := 3, capacity := 8 },
    key := 77, hash1 := 1000, hash2 := 0, capacity := 8 }

/-- Witness for C10 for all three strategies on a context whose primary
hash exceeds the capacity. -/
theorem probe_slot_in_bounds_witness :
    (probeStep ProbeKind.linear ctxOut 3).1 < ctxOut.capacity ∧
    (probeStep ProbeKind.quadratic ctxOut 3).1 < ctxOut.capacity ∧
    (probeStep ProbeKind.doublehash ctxOut 3).1 < ctxOut.capacity :=
  ⟨probe_slot_in_bounds ProbeKind.linear ctxOut 3 (by decide) (by decide),
   probe_slot_in_bounds ProbeKind.quadratic ctxOut 3 (by decide) (by decide),
   probe_slot_in_bounds ProbeKind.doublehash ctxOut 3 (by decide) (by decide)⟩

end HashPerf
